import Mathlib

/-!
# ShadowDrop (SecureHide) — verification of the steganography core

Shallow embedding of the repository's steganography core
(`src/backend/app/main.py`; `src/frontend/src/stego.py` duplicates the same
logic).  Pure Python helpers become Lean functions over `List Nat` byte
strings (each byte `< 256`) and `List Bool` bit strings; the external
libraries the code calls (`hashlib.sha256`, `base64.urlsafe_b64encode`,
`cryptography.fernet.Fernet`) are modelled as executable Lean functions:
SHA-256 is implemented following FIPS 180-4, base64url following RFC 4648,
and Fernet as an authenticated cipher whose token is the urlsafe-base64
encoding of data bound to the key and a 16-byte fresh nonce, with
decryption succeeding exactly when the same key is presented.
The cipher's fresh randomness (IV/timestamp) is passed explicitly as a
`nonce` argument.
-/

/-! ## Bits and bytes

`bytes_to_bin` and `bin_to_bytes` embed the Python helpers of the same
names (`main.py` lines 30-42).  A Python binary string of '0'/'1'
characters is a `List Bool`.
-/

/-- The 8 bits of one byte, most significant first: Python
`format(byte, '08b')` for `b < 256`. -/
def byteToBits (b : Nat) : List Bool :=
  [b.testBit 7, b.testBit 6, b.testBit 5, b.testBit 4,
   b.testBit 3, b.testBit 2, b.testBit 1, b.testBit 0]

/-- Python `bytes_to_bin`: concatenate the `08b` rendering of every byte. -/
def bytes_to_bin : List Nat → List Bool
  | [] => []
  | b :: rest => byteToBits b ++ bytes_to_bin rest

/-- Python `int(byte, 2)`: value of a bit string read as a binary numeral. -/
def bitsToByte (bits : List Bool) : Nat :=
  bits.foldl (fun acc b => 2 * acc + (if b then 1 else 0)) 0

/-- Python `bin_to_bytes`: scan 8-character chunks, stop at the first chunk
equal to `"00000000"`, append `int(chunk, 2)` otherwise; a trailing chunk
shorter than 8 characters never equals the sentinel and is appended as is. -/
def bin_to_bytes : List Bool → List Nat
  | [] => []
  | b1 :: b2 :: b3 :: b4 :: b5 :: b6 :: b7 :: b8 :: rest =>
    if b1 = false ∧ b2 = false ∧ b3 = false ∧ b4 = false ∧
       b5 = false ∧ b6 = false ∧ b7 = false ∧ b8 = false then []
    else bitsToByte [b1, b2, b3, b4, b5, b6, b7, b8] :: bin_to_bytes rest
  | l => [bitsToByte l]

/-- Big-endian value of a byte string (used for the spec's 4-byte length
field and for SHA-256 words). -/
def beUint32 (l : List Nat) : Nat :=
  l.foldl (fun acc b => acc * 256 + b) 0

/-- `len`-byte big-endian rendering of `n`. -/
def beBytes (n : Nat) : Nat → List Nat
  | 0 => []
  | len + 1 => beBytes (n / 256) len ++ [n % 256]

/-! ## base64url (RFC 4648 section 5, with padding)

Model of Python `base64.urlsafe_b64encode`, which both `generate_key` and
the Fernet token format use.  61 is the code of the padding character
`'='`. -/

/-- Character code of the base64url alphabet at index `i` (`A-Z`, `a-z`,
`0-9`, `-`, `_`). -/
def b64char (i : Nat) : Nat :=
  if i < 26 then 65 + i
  else if i < 52 then 71 + i
  else if i < 62 then i - 4
  else if i = 62 then 45
  else 95

/-- base64url encoding of a byte string, 3 input bytes per 4 output
characters, padded with `'='` (61). -/
def b64urlEncode : List Nat → List Nat
  | [] => []
  | [a] => [b64char (a / 4), b64char (a % 4 * 16), 61, 61]
  | [a, b] => [b64char (a / 4), b64char (a % 4 * 16 + b / 16),
               b64char (b % 16 * 4), 61]
  | a :: b :: c :: rest =>
    b64char (a / 4) :: b64char (a % 4 * 16 + b / 16) ::
    b64char (b % 16 * 4 + c / 64) :: b64char (c % 64) :: b64urlEncode rest

/-- Inverse of `b64char` on the alphabet, `none` elsewhere. -/
def b64charInv (c : Nat) : Option Nat :=
  if 65 ≤ c ∧ c ≤ 90 then some (c - 65)
  else if 97 ≤ c ∧ c ≤ 122 then some (c - 71)
  else if 48 ≤ c ∧ c ≤ 57 then some (c + 4)
  else if c = 45 then some 62
  else if c = 95 then some 63
  else none

/-- base64url decoding; rejects strings that are not well-padded groups of
four alphabet characters. -/
def b64urlDecode : List Nat → Option (List Nat)
  | [] => some []
  | c1 :: c2 :: c3 :: c4 :: rest =>
    match b64charInv c1, b64charInv c2 with
    | some i1, some i2 =>
      if c3 = 61 then
        if c4 = 61 ∧ rest = [] then some [i1 * 4 + i2 / 16] else none
      else
        match b64charInv c3 with
        | some i3 =>
          if c4 = 61 then
            if rest = [] then some [i1 * 4 + i2 / 16, i2 % 16 * 16 + i3 / 4]
            else none
          else
            match b64charInv c4, b64urlDecode rest with
            | some i4, some bytes =>
              some ((i1 * 4 + i2 / 16) :: (i2 % 16 * 16 + i3 / 4) ::
                    (i3 % 4 * 64 + i4) :: bytes)
            | _, _ => none
        | none => none
    | _, _ => none
  | _ => none

/-! ## SHA-256 (FIPS 180-4)

Model of `hashlib.sha256(...).digest()`, the external hash `generate_key`
applies to the password.  32-bit words are `Nat` values reduced modulo
`2 ^ 32 = 4294967296` after every arithmetic step. -/

/-- Rotate a 32-bit word right by `n` positions. -/
def rotr32 (n x : Nat) : Nat :=
  ((x >>> n) ||| (x <<< (32 - n))) % 4294967296

/-- SHA-256 big sigma 0. -/
def bsig0 (x : Nat) : Nat := rotr32 2 x ^^^ rotr32 13 x ^^^ rotr32 22 x

/-- SHA-256 big sigma 1. -/
def bsig1 (x : Nat) : Nat := rotr32 6 x ^^^ rotr32 11 x ^^^ rotr32 25 x

/-- SHA-256 small sigma 0. -/
def ssig0 (x : Nat) : Nat := rotr32 7 x ^^^ rotr32 18 x ^^^ (x >>> 3)

/-- SHA-256 small sigma 1. -/
def ssig1 (x : Nat) : Nat := rotr32 17 x ^^^ rotr32 19 x ^^^ (x >>> 10)

/-- SHA-256 choice function (the complement is taken inside 32 bits). -/
def shaCh (e f g : Nat) : Nat := (e &&& f) ^^^ ((e ^^^ 4294967295) &&& g)

/-- SHA-256 majority function. -/
def shaMaj (a b c : Nat) : Nat := (a &&& b) ^^^ (a &&& c) ^^^ (b &&& c)

/-- The 64 SHA-256 round constants. -/
def sha256K : List Nat :=
  [1116352408, 1899447441, 3049323471, 3921009573, 961987163, 1508970993,
   2453635748, 2870763221, 3624381080, 310598401, 607225278, 1426881987,
   1925078388, 2162078206, 2614888103, 3248222580, 3835390401, 4022224774,
   264347078, 604807628, 770255983, 1249150122, 1555081692, 1996064986,
   2554220882, 2821834349, 2952996808, 3210313671, 3336571891, 3584528711,
   113926993, 338241895, 666307205, 773529912, 1294757372, 1396182291,
   1695183700, 1986661051, 2177026350, 2456956037, 2730485921, 2820302411,
   3259730800, 3345764771, 3516065817, 3600352804, 4094571909, 275423344,
   430227734, 506948616, 659060556, 883997877, 958139571, 1322822218,
   1537002063, 1747873779, 1955562222, 2024104815, 2227730452, 2361852424,
   2428436474, 2756734187, 3204031479, 3329325298]

/-- The SHA-256 initial hash state. -/
def sha256H0 : List Nat :=
  [1779033703, 3144134277, 1013904242, 2773480762,
   1359893119, 2600822924, 528734635, 1541459225]

/-- Extend a 16-word block schedule by `k` further words. -/
def buildSchedule (w : List Nat) : Nat → List Nat
  | 0 => w
  | k + 1 =>
    buildSchedule
      (w ++ [(ssig1 (w.getD (w.length - 2) 0) + w.getD (w.length - 7) 0 +
              ssig0 (w.getD (w.length - 15) 0) + w.getD (w.length - 16) 0)
             % 4294967296]) k

/-- The 64 SHA-256 compression rounds over the 8-word working state. -/
def compressRounds :
    List (Nat × Nat) →
    Nat × Nat × Nat × Nat × Nat × Nat × Nat × Nat →
    Nat × Nat × Nat × Nat × Nat × Nat × Nat × Nat
  | [], st => st
  | (k, w) :: rest, (a, b, c, d, e, f, g, h) =>
    let t1 := (h + bsig1 e + shaCh e f g + k + w) % 4294967296
    let t2 := (bsig0 a + shaMaj a b c) % 4294967296
    compressRounds rest
      ((t1 + t2) % 4294967296, a, b, c, (d + t1) % 4294967296, e, f, g)

/-- Split a list into `n`-element chunks (the last chunk may be shorter);
structural in an explicit fuel so that it evaluates in the kernel. -/
def chunksOfAux (n : Nat) : Nat → List Nat → List (List Nat)
  | 0, _ => []
  | _, [] => []
  | fuel + 1, x :: xs => ((x :: xs).take n) :: chunksOfAux n fuel ((x :: xs).drop n)

/-- Split a list into `n`-element chunks. -/
def chunksOf (n : Nat) (l : List Nat) : List (List Nat) :=
  chunksOfAux n l.length l

/-- One SHA-256 block compression: schedule the 16 words of the 64-byte
block, run the 64 rounds and add the result back into the hash state. -/
def compressBlock (hs : List Nat) (block : List Nat) : List Nat :=
  let ws := buildSchedule ((chunksOf 4 block).map beUint32) 48
  let h0 := hs.getD 0 0
  let h1 := hs.getD 1 0
  let h2 := hs.getD 2 0
  let h3 := hs.getD 3 0
  let h4 := hs.getD 4 0
  let h5 := hs.getD 5 0
  let h6 := hs.getD 6 0
  let h7 := hs.getD 7 0
  match compressRounds (sha256K.zip ws) (h0, h1, h2, h3, h4, h5, h6, h7) with
  | (a, b, c, d, e, f, g, h) =>
    [(h0 + a) % 4294967296, (h1 + b) % 4294967296,
     (h2 + c) % 4294967296, (h3 + d) % 4294967296,
     (h4 + e) % 4294967296, (h5 + f) % 4294967296,
     (h6 + g) % 4294967296, (h7 + h) % 4294967296]

/-- SHA-256 padding: append `0x80`, zeros up to 56 mod 64, then the bit
length as a 64-bit big-endian integer. -/
def sha256pad (msg : List Nat) : List Nat :=
  msg ++ [128] ++ List.replicate ((120 - (msg.length + 1) % 64) % 64) 0 ++
    beBytes (8 * msg.length) 8

/-- Render a word list as big-endian bytes, 4 bytes per word. -/
def wordsToBytes : List Nat → List Nat
  | [] => []
  | w :: ws => beBytes w 4 ++ wordsToBytes ws

/-- SHA-256 digest of a byte string: model of
`hashlib.sha256(data).digest()`. -/
def sha256 (msg : List Nat) : List Nat :=
  wordsToBytes ((chunksOf 64 (sha256pad msg)).foldl compressBlock sha256H0)

/-! ## Key derivation and the Fernet cipher

`generate_key` (`main.py` lines 25-28) is the repository's own code: a
single unsalted SHA-256 of the password, urlsafe-base64 encoded into the
44-byte form `Fernet` expects.  `Fernet` itself is the external
authenticated-encryption capability; it is modelled as a token carrying
the key, a 16-byte fresh nonce (standing for the real token's random IV
and timestamp) and the plaintext, base64url-encoded exactly like a real
Fernet token, with decryption succeeding exactly when the presented key
matches the one the token was built under. -/

/-- Python `generate_key`: `urlsafe_b64encode(sha256(password).digest())`.
The password is represented by its UTF-8 bytes. -/
def generate_key (password : List Nat) : List Nat :=
  b64urlEncode (sha256 password)

/-- Model of `Fernet(key).encrypt(plaintext)`: an opaque authenticated
token, base64url text over the data bound to the key and a fresh 16-byte
nonce. -/
def fernetEncrypt (key nonce plaintext : List Nat) : List Nat :=
  b64urlEncode (key ++ nonce ++ plaintext)

/-- Model of `Fernet(key).decrypt(token)`: returns the plaintext exactly
when the token is well-formed base64 and was built under the same key;
`none` models the `InvalidToken` exception (wrong password or tampering). -/
def fernetDecrypt (key token : List Nat) : Option (List Nat) :=
  match b64urlDecode token with
  | none => none
  | some raw =>
    if raw.take key.length = key ∧ key.length + 16 ≤ raw.length
    then some (raw.drop (key.length + 16))
    else none

/-! ## Pixel grids and the LSB embedder / extractor

A pixel is an `(r, g, b)` channel triple; a grid is the list of its rows,
in the traversal order of the Python loops (`for y ... for x ...`): rows
top to bottom, pixels left to right, channels R, G, B. -/

/-- An RGB pixel. -/
abbrev Pixel := Nat × Nat × Nat

/-- A pixel grid, as a list of rows. -/
abbrev Grid := List (List Pixel)

/-- The width the code reads from the image (length of a row). -/
def gridWidth (g : Grid) : Nat := (g.headD []).length

/-- The height the code reads from the image (number of rows). -/
def gridHeight (g : Grid) : Nat := g.length

/-- `capacity = width * height * 3` (`main.py` line 83). -/
def imageCapacity (g : Grid) : Nat := gridWidth g * gridHeight g * 3

/-- Every row has length `w`: the shape of a real decoded image. -/
def Wellformed (w : Nat) (g : Grid) : Prop := ∀ row ∈ g, row.length = w

instance (w : Nat) (g : Grid) : Decidable (Wellformed w g) := by
  unfold Wellformed
  infer_instance

/-- The channels of one row in traversal order R, G, B. -/
def rowChannels : List Pixel → List Nat
  | [] => []
  | (r, g, b) :: ps => r :: g :: b :: rowChannels ps

/-- All channels of a grid in the fixed traversal order. -/
def channels : Grid → List Nat
  | [] => []
  | row :: rows => rowChannels row ++ channels rows

/-- Python `channel & 1` as a bit. -/
def lsbBit (c : Nat) : Bool := c % 2 = 1

/-- Python `(channel & ~1) | bit`: replace the least-significant bit. -/
def setLSB (c : Nat) (b : Bool) : Nat := 2 * (c / 2) + (if b then 1 else 0)

/-- Write one payload bit into a channel if any bits remain
(`if idx < len(encrypted_bin): channel = (channel & ~1) | bit`). -/
def takeBit : List Bool → Nat → Nat × List Bool
  | [], c => (c, [])
  | b :: bs, c => (setLSB c b, bs)

/-- Embed up to three payload bits into one pixel's R, G, B channels. -/
def embedPixel (bits : List Bool) (p : Pixel) : Pixel × List Bool :=
  let (r2, bits1) := takeBit bits p.1
  let (g2, bits2) := takeBit bits1 p.2.1
  let (b2, bits3) := takeBit bits2 p.2.2
  ((r2, g2, b2), bits3)

/-- Embed payload bits along one row; once the bits run out
(`if idx >= len(encrypted_bin): break`) the rest of the row is untouched. -/
def embedRow : List Bool → List Pixel → List Pixel × List Bool
  | bits, [] => ([], bits)
  | [], ps => (ps, [])
  | bits, p :: ps =>
    let (p2, bits2) := embedPixel bits p
    let (ps2, bits3) := embedRow bits2 ps
    (p2 :: ps2, bits3)

/-- Embed payload bits row by row (`for y ... for x ...`). -/
def embedGrid : List Bool → Grid → Grid × List Bool
  | bits, [] => ([], bits)
  | bits, row :: rows =>
    let (row2, bits2) := embedRow bits row
    let (rows2, bits3) := embedGrid bits2 rows
    (row2 :: rows2, bits3)

/-- The LSB stream of one row (`bits += str(r & 1)` and so on). -/
def extractRowBits : List Pixel → List Bool
  | [] => []
  | (r, g, b) :: ps => lsbBit r :: lsbBit g :: lsbBit b :: extractRowBits ps

/-- The LSB stream of the whole grid in traversal order. -/
def extractBits : Grid → List Bool
  | [] => []
  | row :: rows => extractRowBits row ++ extractBits rows

/-! ## The two endpoints

`hide_message` and `extract_message` (`main.py` lines 53-180) with the
HTTP / image-file plumbing stripped: the image is already a pixel grid,
message and password are byte strings, and the cipher's fresh randomness
is the explicit `nonce`.  `HTTPException`s become error values. -/

/-- The errors `hide_message` raises: empty message (400), password under
6 characters (400), and capacity exceeded (400, whose detail reports
`capacity // 8 // 2` as a maximum character count). -/
inductive HideError
  | emptyMessage
  | shortPassword
  | tooLarge (maxChars : Nat)
deriving DecidableEq

/-- The errors `extract_message` raises: missing password (400) and the
single 401 "Wrong password or no hidden message found" that covers every
decryption failure. -/
inductive ExtractError
  | noPassword
  | wrongPasswordOrNoMessage
deriving DecidableEq

/-- The bit stream `hide_message` embeds:
`bytes_to_bin(encrypted) + "00000000"`. -/
def payloadBits (message password nonce : List Nat) : List Bool :=
  bytes_to_bin (fernetEncrypt (generate_key password) nonce message) ++
    List.replicate 8 false

/-- The byte sequence whose bit expansion `hide_message` embeds: the
Fernet token followed by the one-byte `0x00` sentinel. -/
def encodePayload (message password nonce : List Nat) : List Nat :=
  fernetEncrypt (generate_key password) nonce message ++ [0]

/-- Python `hide_message` (`main.py` lines 53-127): validate, encrypt,
append the sentinel, check capacity, then write the payload bits into the
channel LSBs in traversal order. -/
def hide_message (grid : Grid) (message password nonce : List Nat) :
    Except HideError Grid :=
  if message.length = 0 then .error .emptyMessage
  else if password.length < 6 then .error .shortPassword
  else if imageCapacity grid < (payloadBits message password nonce).length then
    .error (.tooLarge (imageCapacity grid / 8 / 2))
  else .ok (embedGrid (payloadBits message password nonce) grid).1

/-- Python `extract_message` (`main.py` lines 129-180): validate the
password, read every channel LSB, cut the stream at the sentinel with
`bin_to_bytes`, and decrypt; any decryption failure is the one 401
error. -/
def extract_message (grid : Grid) (password : List Nat) :
    Except ExtractError (List Nat) :=
  if password.length = 0 then .error .noPassword
  else
    match fernetDecrypt (generate_key password) (bin_to_bytes (extractBits grid)) with
    | some plaintext => .ok plaintext
    | none => .error .wrongPasswordOrNoMessage

/-! ## Spec-side definitions

Definitions that follow the specification's words, for the claims that
compare the code against the spec's stated design. -/

/-- The spec's wire-format invariant on a payload: a 20-byte header whose
bytes 16-19 are a big-endian length field exactly equal to the byte length
of the ciphertext that follows (spec sections 3 and 4.2). -/
def specHeaderFormat (payload : List Nat) : Prop :=
  20 ≤ payload.length ∧ beUint32 ((payload.drop 16).take 4) = payload.length - 20

instance (payload : List Nat) : Decidable (specHeaderFormat payload) := by
  unfold specHeaderFormat; infer_instance

/-- Pack completed bytes out of a bit stream, 8 bits MSB-first per byte,
dropping a trailing incomplete chunk. -/
def completedBytes : List Bool → List Nat
  | b1 :: b2 :: b3 :: b4 :: b5 :: b6 :: b7 :: b8 :: rest =>
    bitsToByte [b1, b2, b3, b4, b5, b6, b7, b8] :: completedBytes rest
  | _ => []

/-- Modelled from the spec: section 4.5 BitExtractor.  Walks the channels
in the embedder's order packing completed bytes; once at least 20 bytes
are available it parses the tentative header and stops at
`20 + length` bytes; if the image is exhausted before 20 bytes it returns
whatever was collected.  The code's extractor is compared against this. -/
def specExtract (grid : Grid) : List Nat :=
  let bytes := completedBytes ((channels grid).map lsbBit)
  if bytes.length < 20 then bytes
  else bytes.take (20 + beUint32 ((bytes.drop 16).take 4))

/-! ## Basic lemmas -/

theorem takeAppendSelf (l1 l2 : List Nat) : (l1 ++ l2).take l1.length = l1 := by
  induction l1 with
  | nil => simp
  | cons x xs ih => simp [ih]

theorem dropAppendPlus (l1 l2 : List Nat) (k : Nat) :
    (l1 ++ l2).drop (l1.length + k) = l2.drop k := by
  induction l1 with
  | nil => simp
  | cons x xs ih => simpa [Nat.succ_add] using ih

theorem lsbBit_setLSB (c : Nat) (b : Bool) : lsbBit (setLSB c b) = b := by
  cases b <;> simp [lsbBit, setLSB] <;> omega

theorem setLSB_div (c : Nat) (b : Bool) : setLSB c b / 2 = c / 2 := by
  cases b <;> simp [setLSB] <;> omega

theorem setLSB_mod (c : Nat) (b : Bool) :
    setLSB c b % 2 = if b then 1 else 0 := by
  cases b <;> simp [setLSB] <;> omega

set_option maxRecDepth 4000 in
theorem bitsToByte_byteToBits : ∀ b < 256, bitsToByte (byteToBits b) = b := by
  decide

set_option maxRecDepth 4000 in
theorem byteToBits_all_false : ∀ b < 256, b ≠ 0 →
    ¬(b.testBit 7 = false ∧ b.testBit 6 = false ∧ b.testBit 5 = false ∧
      b.testBit 4 = false ∧ b.testBit 3 = false ∧ b.testBit 2 = false ∧
      b.testBit 1 = false ∧ b.testBit 0 = false) := by
  decide

theorem bytes_to_bin_length (l : List Nat) :
    (bytes_to_bin l).length = 8 * l.length := by
  induction l with
  | nil => simp [bytes_to_bin]
  | cons b rest ih => simp [bytes_to_bin, byteToBits, ih]; ring

/-- One step of `bin_to_bytes` over an 8-aligned nonzero byte. -/
theorem bin_to_bytes_cons (b : Nat) (rest : List Bool)
    (hb : b < 256) (hnz : b ≠ 0) :
    bin_to_bytes (byteToBits b ++ rest) = b :: bin_to_bytes rest := by
  have hne := byteToBits_all_false b hb hnz
  simp only [byteToBits, List.cons_append, List.nil_append, bin_to_bytes]
  rw [if_neg hne]
  simpa [byteToBits] using congrArg (· :: bin_to_bytes rest) (bitsToByte_byteToBits b hb)

/-- `bin_to_bytes` stops at an aligned all-zero byte. -/
theorem bin_to_bytes_sentinel (junk : List Bool) :
    bin_to_bytes (List.replicate 8 false ++ junk) = [] := by
  simp [List.replicate, bin_to_bytes]

/-- The sentinel codec round trip: for a zero-free byte string, the byte
string is recovered from its bit expansion whatever bits follow the
sentinel byte. -/
theorem bin_to_bytes_roundtrip (data : List Nat) (junk : List Bool)
    (hnz : ∀ b ∈ data, b ≠ 0) (hlt : ∀ b ∈ data, b < 256) :
    bin_to_bytes (bytes_to_bin data ++ List.replicate 8 false ++ junk) = data := by
  induction data with
  | nil => simpa [bytes_to_bin] using bin_to_bytes_sentinel junk
  | cons b rest ih =>
    have hb : b < 256 := hlt b (by simp)
    have hz : b ≠ 0 := hnz b (by simp)
    have ih2 := ih (fun x hx => hnz x (by simp [hx])) (fun x hx => hlt x (by simp [hx]))
    calc bin_to_bytes (bytes_to_bin (b :: rest) ++ List.replicate 8 false ++ junk)
        = bin_to_bytes (byteToBits b ++ (bytes_to_bin rest ++ List.replicate 8 false ++ junk)) := by
          simp [bytes_to_bin]
      _ = b :: bin_to_bytes (bytes_to_bin rest ++ List.replicate 8 false ++ junk) :=
          bin_to_bytes_cons b _ hb hz
      _ = b :: rest := by rw [ih2]

/-! ## base64url lemmas -/

theorem b64char_bound (i : Nat) : 0 < b64char i ∧ b64char i < 256 := by
  unfold b64char
  split_ifs <;> omega

theorem b64char_ne_pad (i : Nat) : b64char i ≠ 61 := by
  unfold b64char
  split_ifs <;> omega

theorem b64charInv_b64char : ∀ i < 64, b64charInv (b64char i) = some i := by
  decide

/-- Every character of a base64url encoding is a nonzero byte. -/
theorem b64urlEncode_mem : ∀ (l : List Nat), ∀ x ∈ b64urlEncode l, 0 < x ∧ x < 256
  | [] => by simp [b64urlEncode]
  | [a] => by
    intro x hx
    simp only [b64urlEncode, List.mem_cons, List.not_mem_nil, or_false] at hx
    rcases hx with rfl | rfl | rfl | rfl <;> first | exact b64char_bound _ | omega
  | [a, b] => by
    intro x hx
    simp only [b64urlEncode, List.mem_cons, List.not_mem_nil, or_false] at hx
    rcases hx with rfl | rfl | rfl | rfl <;> first | exact b64char_bound _ | omega
  | a :: b :: c :: rest => by
    intro x hx
    simp only [b64urlEncode, List.mem_cons] at hx
    rcases hx with rfl | rfl | rfl | rfl | hx
    · exact b64char_bound _
    · exact b64char_bound _
    · exact b64char_bound _
    · exact b64char_bound _
    · exact b64urlEncode_mem rest x hx

theorem b64urlEncode_length : ∀ l : List Nat,
    (b64urlEncode l).length = (l.length + 2) / 3 * 4
  | [] => by simp [b64urlEncode]
  | [a] => by simp [b64urlEncode]
  | [a, b] => by simp [b64urlEncode]
  | a :: b :: c :: rest => by
    have ih := b64urlEncode_length rest
    simp only [b64urlEncode, List.length_cons, ih]
    omega

theorem b64urlDecode_pad2 (i1 i2 : Nat) (h1 : i1 < 64) (h2 : i2 < 64) :
    b64urlDecode [b64char i1, b64char i2, 61, 61] = some [i1 * 4 + i2 / 16] := by
  simp [b64urlDecode, b64charInv_b64char i1 h1, b64charInv_b64char i2 h2]

theorem b64urlDecode_pad1 (i1 i2 i3 : Nat)
    (h1 : i1 < 64) (h2 : i2 < 64) (h3 : i3 < 64) :
    b64urlDecode [b64char i1, b64char i2, b64char i3, 61] =
      some [i1 * 4 + i2 / 16, i2 % 16 * 16 + i3 / 4] := by
  simp [b64urlDecode, b64charInv_b64char i1 h1, b64charInv_b64char i2 h2,
        b64charInv_b64char i3 h3, b64char_ne_pad i3]

theorem b64urlDecode_full (i1 i2 i3 i4 : Nat) (rest : List Nat) (bytes : List Nat)
    (h1 : i1 < 64) (h2 : i2 < 64) (h3 : i3 < 64) (h4 : i4 < 64)
    (hrest : b64urlDecode rest = some bytes) :
    b64urlDecode (b64char i1 :: b64char i2 :: b64char i3 :: b64char i4 :: rest) =
      some ((i1 * 4 + i2 / 16) :: (i2 % 16 * 16 + i3 / 4) ::
            (i3 % 4 * 64 + i4) :: bytes) := by
  simp [b64urlDecode, b64charInv_b64char i1 h1, b64charInv_b64char i2 h2,
        b64charInv_b64char i3 h3, b64charInv_b64char i4 h4,
        b64char_ne_pad i3, b64char_ne_pad i4, hrest]

/-- base64url decoding inverts encoding on genuine byte strings. -/
theorem b64_roundtrip : ∀ l : List Nat, (∀ x ∈ l, x < 256) →
    b64urlDecode (b64urlEncode l) = some l
  | [], _ => by simp [b64urlEncode, b64urlDecode]
  | [a], h => by
    have ha : a < 256 := h a (by simp)
    have e : b64urlEncode [a] = [b64char (a / 4), b64char (a % 4 * 16), 61, 61] := rfl
    rw [e, b64urlDecode_pad2 (a / 4) (a % 4 * 16) (by omega) (by omega)]
    have e1 : a / 4 * 4 + a % 4 * 16 / 16 = a := by omega
    rw [e1]
  | [a, b], h => by
    have ha : a < 256 := h a (by simp)
    have hb : b < 256 := h b (by simp)
    have e : b64urlEncode [a, b] =
        [b64char (a / 4), b64char (a % 4 * 16 + b / 16), b64char (b % 16 * 4), 61] := rfl
    rw [e, b64urlDecode_pad1 (a / 4) (a % 4 * 16 + b / 16) (b % 16 * 4)
          (by omega) (by omega) (by omega)]
    have e1 : a / 4 * 4 + (a % 4 * 16 + b / 16) / 16 = a := by omega
    have e2 : (a % 4 * 16 + b / 16) % 16 * 16 + b % 16 * 4 / 4 = b := by omega
    rw [e1, e2]
  | a :: b :: c :: rest, h => by
    have ha : a < 256 := h a (by simp)
    have hb : b < 256 := h b (by simp)
    have hc : c < 256 := h c (by simp)
    have hrec : b64urlDecode (b64urlEncode rest) = some rest :=
      b64_roundtrip rest (fun x hx => h x (by simp [hx]))
    have e : b64urlEncode (a :: b :: c :: rest) =
        b64char (a / 4) :: b64char (a % 4 * 16 + b / 16) ::
        b64char (b % 16 * 4 + c / 64) :: b64char (c % 64) ::
        b64urlEncode rest := rfl
    rw [e, b64urlDecode_full (a / 4) (a % 4 * 16 + b / 16) (b % 16 * 4 + c / 64)
          (c % 64) _ _ (by omega) (by omega) (by omega) (by omega) hrec]
    have e1 : a / 4 * 4 + (a % 4 * 16 + b / 16) / 16 = a := by omega
    have e2 : (a % 4 * 16 + b / 16) % 16 * 16 + (b % 16 * 4 + c / 64) / 4 = b := by omega
    have e3 : (b % 16 * 4 + c / 64) % 4 * 64 + c % 64 = c := by omega
    rw [e1, e2, e3]

/-- A decoded byte string is at most three quarters of the token length:
no short token can decode to a long raw string. -/
theorem b64urlDecode_length : ∀ (t raw : List Nat),
    b64urlDecode t = some raw → 4 * raw.length ≤ 3 * t.length
  | [], raw => by
    intro h
    simp only [b64urlDecode, Option.some.injEq] at h
    subst h; simp
  | [c1], raw => by intro h; simp [b64urlDecode] at h
  | [c1, c2], raw => by intro h; simp [b64urlDecode] at h
  | [c1, c2, c3], raw => by intro h; simp [b64urlDecode] at h
  | c1 :: c2 :: c3 :: c4 :: rest, raw => by
    intro h
    simp only [b64urlDecode] at h
    rcases h1 : b64charInv c1 with _ | i1 <;> rcases h2 : b64charInv c2 with _ | i2 <;>
      rw [h1, h2] at h
    · cases h
    · cases h
    · cases h
    dsimp only at h
    by_cases hc3 : c3 = 61
    · rw [if_pos hc3] at h
      by_cases hcr : c4 = 61 ∧ rest = []
      · rw [if_pos hcr] at h
        injection h with h
        subst h; simp; omega
      · rw [if_neg hcr] at h; cases h
    · rw [if_neg hc3] at h
      rcases h3 : b64charInv c3 with _ | i3 <;> rw [h3] at h
      · cases h
      dsimp only at h
      by_cases hc4 : c4 = 61
      · rw [if_pos hc4] at h
        by_cases hr : rest = []
        · rw [if_pos hr] at h
          injection h with h
          subst h; subst hr; simp
        · rw [if_neg hr] at h; cases h
      · rw [if_neg hc4] at h
        rcases h4 : b64charInv c4 with _ | i4 <;>
          rcases hdec : b64urlDecode rest with _ | bytes <;> rw [h4, hdec] at h
        · cases h
        · cases h
        · cases h
        injection h with h
        subst h
        have ih := b64urlDecode_length rest bytes hdec
        simp only [List.length_cons]
        omega

/-! ## Embedder and extractor lemmas

`embedChannels` is the flat view of the embedding: write one payload bit
into the LSB of each successive channel of the traversal until the bits
run out.  The row/grid embedder of the code is proved equal to it. -/

/-- Flat form of the embedding over the channel enumeration. -/
def embedChannels : List Bool → List Nat → List Nat
  | _, [] => []
  | [], cs => cs
  | b :: bs, c :: cs => setLSB c b :: embedChannels bs cs

theorem embedChannels_nil_bits (cs : List Nat) : embedChannels [] cs = cs := by
  cases cs <;> rfl

theorem embedChannels_length : ∀ (bits : List Bool) (cs : List Nat),
    (embedChannels bits cs).length = cs.length
  | bits, [] => by cases bits <;> rfl
  | [], _ :: _ => rfl
  | _ :: bs, _ :: cs => by
    simp only [embedChannels, List.length_cons, embedChannels_length bs cs]

theorem embedChannels_append : ∀ (bits : List Bool) (cs1 cs2 : List Nat),
    embedChannels bits (cs1 ++ cs2) =
      embedChannels bits cs1 ++ embedChannels (bits.drop cs1.length) cs2
  | bits, [], cs2 => by cases bits <;> simp [embedChannels]
  | [], c :: cs1, cs2 => by simp [embedChannels_nil_bits]
  | b :: bs, c :: cs1, cs2 => by
    simp only [List.cons_append, embedChannels, List.length_cons, List.drop_succ_cons,
      embedChannels_append bs cs1 cs2, List.append_eq]

/-- The row embedder is the flat embedding over the row's channels, and it
returns the bits left after the row's channels. -/
theorem embedRow_nil_bits : ∀ ps : List Pixel, embedRow [] ps = (ps, []) := by
  intro ps
  cases ps <;> rfl

theorem embedRow_spec : ∀ (row : List Pixel) (bits : List Bool),
    rowChannels (embedRow bits row).1 = embedChannels bits (rowChannels row) ∧
    (embedRow bits row).2 = bits.drop (rowChannels row).length
  | [], bits => by cases bits <;> simp [embedRow, rowChannels, embedChannels]
  | p :: ps, [] => by
    simp [embedRow, embedChannels_nil_bits]
  | p :: ps, [b1] => by
    obtain ⟨r, g, bl⟩ := p
    simp [embedRow, embedPixel, takeBit, rowChannels, embedChannels,
      embedChannels_nil_bits, embedRow_nil_bits]
  | p :: ps, [b1, b2] => by
    obtain ⟨r, g, bl⟩ := p
    simp [embedRow, embedPixel, takeBit, rowChannels, embedChannels,
      embedChannels_nil_bits, embedRow_nil_bits]
  | p :: ps, b1 :: b2 :: b3 :: bs => by
    obtain ⟨r, g, bl⟩ := p
    have ih := embedRow_spec ps bs
    simp [embedRow, embedPixel, takeBit, rowChannels, embedChannels, ih.1, ih.2]

/-- The grid embedder is the flat embedding over the whole channel
enumeration. -/
theorem embedGrid_spec : ∀ (g : Grid) (bits : List Bool),
    channels (embedGrid bits g).1 = embedChannels bits (channels g) ∧
    (embedGrid bits g).2 = bits.drop (channels g).length
  | [], bits => by simp [embedGrid, channels, embedChannels]
  | row :: rows, bits => by
    have hrow := embedRow_spec row bits
    have ih := embedGrid_spec rows (embedRow bits row).2
    rw [hrow.2] at ih
    simp only [embedGrid, channels, hrow.1, hrow.2, ih.1, ih.2,
      embedChannels_append, List.drop_drop, List.length_append]
    trivial

theorem extractRowBits_eq (row : List Pixel) :
    extractRowBits row = (rowChannels row).map lsbBit := by
  induction row with
  | nil => rfl
  | cons p ps ih =>
    obtain ⟨r, g, b⟩ := p
    simp [extractRowBits, rowChannels, ih]

/-- The extractor reads exactly the LSBs of the embedder's channel
enumeration, in the same order. -/
theorem extractBits_eq (g : Grid) : extractBits g = (channels g).map lsbBit := by
  induction g with
  | nil => rfl
  | cons row rows ih => simp [extractBits, channels, extractRowBits_eq, ih]

/-- Reading back the LSBs after the flat embedding returns the embedded
bits followed by the untouched channels' LSBs. -/
theorem map_lsbBit_embedChannels : ∀ (bits : List Bool) (cs : List Nat),
    bits.length ≤ cs.length →
    (embedChannels bits cs).map lsbBit = bits ++ (cs.drop bits.length).map lsbBit
  | [], cs, _ => by simp [embedChannels_nil_bits]
  | b :: bs, [], h => by simp at h
  | b :: bs, c :: cs, h => by
    have ih := map_lsbBit_embedChannels bs cs (by simpa using h)
    simp [embedChannels, lsbBit_setLSB, ih]

theorem rowChannels_length (row : List Pixel) :
    (rowChannels row).length = 3 * row.length := by
  induction row with
  | nil => rfl
  | cons p ps ih =>
    obtain ⟨r, g, b⟩ := p
    simp [rowChannels, ih]
    ring

theorem channels_length (w : Nat) : ∀ (g : Grid), Wellformed w g →
    (channels g).length = 3 * w * g.length
  | [], _ => rfl
  | row :: rows, h => by
    have hrow : row.length = w := h row (by simp)
    have ih := channels_length w rows (fun r hr => h r (by simp [hr]))
    simp [channels, rowChannels_length, hrow, ih]
    ring

/-- For a well-formed grid the code's `width * height * 3` capacity equals
the length of the channel enumeration. -/
theorem capacity_eq_channels (w : Nat) (g : Grid) (h : Wellformed w g) :
    imageCapacity g = (channels g).length := by
  cases g with
  | nil => rfl
  | cons row rows =>
    have hrow : row.length = w := h row (by simp)
    simp [imageCapacity, gridWidth, gridHeight, hrow,
      channels_length w (row :: rows) h]
    ring

theorem embedChannels_getD_ge : ∀ (bits : List Bool) (cs : List Nat) (i : Nat),
    bits.length ≤ i → (embedChannels bits cs).getD i 0 = cs.getD i 0
  | [], cs, i, _ => by simp [embedChannels_nil_bits]
  | b :: bs, [], i, h => by simp [embedChannels]
  | b :: bs, c :: cs, i, h => by
    match i with
    | 0 => simp at h
    | j + 1 =>
      have ih := embedChannels_getD_ge bs cs j (by simpa using h)
      simp only [embedChannels, List.getD_cons_succ]
      exact ih

theorem embedChannels_getD_lt : ∀ (bits : List Bool) (cs : List Nat) (i : Nat),
    i < bits.length → i < cs.length →
    (embedChannels bits cs).getD i 0 = setLSB (cs.getD i 0) (bits.getD i false)
  | [], cs, i, h, _ => by simp at h
  | b :: bs, [], i, _, h => by simp at h
  | b :: bs, c :: cs, i, h1, h2 => by
    match i with
    | 0 => simp only [embedChannels, List.getD_cons_zero]
    | j + 1 =>
      have ih := embedChannels_getD_lt bs cs j (by simpa using h1) (by simpa using h2)
      simp only [embedChannels, List.getD_cons_succ]
      exact ih

/-! ## Key, cipher and pipeline lemmas -/

theorem beBytes_length (n : Nat) : ∀ len : Nat, (beBytes n len).length = len := by
  intro len
  induction len generalizing n with
  | zero => rfl
  | succ k ih => simp [beBytes, ih]

theorem wordsToBytes_length : ∀ ws : List Nat,
    (wordsToBytes ws).length = 4 * ws.length
  | [] => rfl
  | w :: ws => by
    simp [wordsToBytes, beBytes_length, wordsToBytes_length ws]
    ring

theorem compressBlock_length (hs block : List Nat) :
    (compressBlock hs block).length = 8 := by
  unfold compressBlock
  dsimp only
  rfl

theorem foldl_compressBlock_length (blocks : List (List Nat)) :
    ∀ hs : List Nat, hs.length = 8 →
    (blocks.foldl compressBlock hs).length = 8 := by
  induction blocks with
  | nil => intro hs h; simpa using h
  | cons b bs ih =>
    intro hs h
    simpa [List.foldl_cons] using ih (compressBlock hs b) (compressBlock_length hs b)

/-- A SHA-256 digest is always 32 bytes. -/
theorem sha256_length (msg : List Nat) : (sha256 msg).length = 32 := by
  unfold sha256
  rw [wordsToBytes_length, foldl_compressBlock_length _ sha256H0 rfl]

/-- The key the code derives is the 44-character base64url form of the
32-byte digest. -/
theorem generate_key_length (password : List Nat) :
    (generate_key password).length = 44 := by
  unfold generate_key
  rw [b64urlEncode_length, sha256_length]

theorem generate_key_mem (password : List Nat) :
    ∀ x ∈ generate_key password, 0 < x ∧ x < 256 :=
  b64urlEncode_mem _

/-- Decrypting a token with the key it was built under returns the
plaintext. -/
theorem fernetDecrypt_correct (key nonce pt : List Nat)
    (hkey : ∀ x ∈ key, x < 256) (hn : nonce.length = 16)
    (hnb : ∀ x ∈ nonce, x < 256) (hpt : ∀ x ∈ pt, x < 256) :
    fernetDecrypt key (fernetEncrypt key nonce pt) = some pt := by
  unfold fernetDecrypt fernetEncrypt
  have hbound : ∀ x ∈ key ++ nonce ++ pt, x < 256 := by
    intro x hx
    simp only [List.mem_append] at hx
    rcases hx with (hx | hx) | hx
    · exact hkey x hx
    · exact hnb x hx
    · exact hpt x hx
  rw [b64_roundtrip _ hbound]
  dsimp only
  have htake : (key ++ nonce ++ pt).take key.length = key := by
    rw [List.append_assoc]
    exact takeAppendSelf key (nonce ++ pt)
  have hlen : key.length + 16 ≤ (key ++ nonce ++ pt).length := by
    simp [List.length_append, hn]
  rw [if_pos ⟨htake, hlen⟩]
  have hdrop : (key ++ nonce ++ pt).drop (key.length + 16) = pt := by
    rw [List.append_assoc, dropAppendPlus key (nonce ++ pt) 16, ← hn]
    have := dropAppendPlus nonce pt 0
    simpa using this
  rw [hdrop]

/-- Decrypting a token with a different key of the same length fails. -/
theorem fernetDecrypt_wrong (key1 key2 nonce pt : List Nat)
    (hb : ∀ x ∈ key1 ++ nonce ++ pt, x < 256)
    (hlen : key2.length = key1.length) (hne : key2 ≠ key1) :
    fernetDecrypt key2 (fernetEncrypt key1 nonce pt) = none := by
  unfold fernetDecrypt fernetEncrypt
  rw [b64_roundtrip _ hb]
  dsimp only
  have htake : (key1 ++ nonce ++ pt).take key2.length = key1 := by
    rw [hlen, List.append_assoc]
    exact takeAppendSelf key1 (nonce ++ pt)
  rw [if_neg]
  intro hcond
  exact hne (htake.symm.trans hcond.1).symm

/-- Inversion of a successful `hide_message`: the validations passed, the
payload fits, and the result is the embedded grid. -/
theorem hide_ok_elim (grid : Grid) (m p n : List Nat) (g' : Grid)
    (hok : hide_message grid m p n = Except.ok g') :
    m.length ≠ 0 ∧ 6 ≤ p.length ∧
    (payloadBits m p n).length ≤ imageCapacity grid ∧
    g' = (embedGrid (payloadBits m p n) grid).1 := by
  unfold hide_message at hok
  split_ifs at hok with h1 h2 h3
  any_goals cases hok
  exact ⟨h1, by omega, by omega, rfl⟩

set_option maxHeartbeats 1000000 in
/-- After a successful hide, reading every LSB and cutting at the sentinel
recovers exactly the Fernet token. -/
theorem hide_extract_token (grid : Grid) (w : Nat) (m p nonce : List Nat)
    (g' : Grid) (hw : Wellformed w grid)
    (hok : hide_message grid m p nonce = Except.ok g') :
    bin_to_bytes (extractBits g') =
      fernetEncrypt (generate_key p) nonce m := by
  obtain ⟨-, -, hcap, hg⟩ := hide_ok_elim grid m p nonce g' hok
  subst hg
  have hlen : (payloadBits m p nonce).length ≤ (channels grid).length := by
    rw [← capacity_eq_channels w grid hw]
    exact hcap
  rw [extractBits_eq, (embedGrid_spec grid (payloadBits m p nonce)).1,
      map_lsbBit_embedChannels _ _ hlen]
  unfold payloadBits
  exact bin_to_bytes_roundtrip _ _
    (fun x hx => Nat.pos_iff_ne_zero.mp (b64urlEncode_mem _ x hx).1)
    (fun x hx => (b64urlEncode_mem _ x hx).2)

/-! ## Concrete instances

Inputs for witnesses and counterexamples: the message "HI", the passwords
"secret" and "wrongpw" as UTF-8 bytes, fixed 16-byte nonces standing for
the cipher's fresh randomness, a 16 x 15 white carrier (capacity 720
bits), a 4 x 4 white carrier (capacity 48 bits) and a 3 x 3 black image
with no payload. -/

def wMsg : List Nat := [72, 73]

def wPwd : List Nat := [115, 101, 99, 114, 101, 116]

def wPwd2 : List Nat := [119, 114, 111, 110, 103, 112, 119]

def wNonce : List Nat := List.replicate 16 7

def wNonce2 : List Nat := 9 :: List.replicate 15 7

def wGrid : Grid := List.replicate 15 (List.replicate 16 (255, 255, 255))

def smallGrid : Grid := List.replicate 4 (List.replicate 4 (255, 255, 255))

def zeroGrid : Grid := List.replicate 3 (List.replicate 3 (0, 0, 0))

/-- Pixels whose channels carry the given bits in their LSBs. -/
def pixelsOfBits : List Bool → List Pixel
  | b1 :: b2 :: b3 :: rest =>
    ((if b1 then 1 else 0), (if b2 then 1 else 0), (if b3 then 1 else 0)) ::
      pixelsOfBits rest
  | _ => []

/-- Arrange pixels into rows of eight. -/
def rowsOf8 : List Pixel → Grid
  | p1 :: p2 :: p3 :: p4 :: p5 :: p6 :: p7 :: p8 :: rest =>
    [p1, p2, p3, p4, p5, p6, p7, p8] :: rowsOf8 rest
  | _ => []

/-- 21 bytes: 16 nonzero bytes, a header-style length field declaring 1,
and one nonzero byte after it. -/
def c8Bytes : List Nat :=
  [1, 1, 1, 1, 1, 1, 1, 1, 1, 1, 1, 1, 1, 1, 1, 1, 0, 0, 0, 1, 7]

/-- An 8 x 7 carrier whose LSB stream spells out `c8Bytes`. -/
def c8Grid : Grid := rowsOf8 (pixelsOfBits (bytes_to_bin c8Bytes))

/-! ## Core round-trip lemma -/

/-- Extraction with the hiding password inverts a successful hide. -/
theorem round_trip_core (grid : Grid) (w : Nat)
    (message password nonce : List Nat) (g' : Grid)
    (hw : Wellformed w grid)
    (hmb : ∀ b ∈ message, b < 256)
    (hpw : 6 ≤ password.length)
    (hn : nonce.length = 16) (hnb : ∀ b ∈ nonce, b < 256)
    (hok : hide_message grid message password nonce = Except.ok g') :
    extract_message g' password = Except.ok message := by
  have htok := hide_extract_token grid w message password nonce g' hw hok
  unfold extract_message
  rw [if_neg (by omega), htok,
      fernetDecrypt_correct (generate_key password) nonce message
        (fun x hx => (generate_key_mem password x hx).2) hn hnb hmb]

/-! ## The claims -/

set_option maxRecDepth 100000

/-- C1: for every RGB image whose bit capacity (width * height * 3) admits
the embedded payload, every non-empty message, and every password of
length at least 6, extracting with the same password from the image
produced by `hide_message` returns exactly the original message.  (The
image produced by hide is a successful hide's output; message bytes and
nonce bytes are genuine bytes, i.e. below 256, and the Fernet nonce is the
16 fresh random bytes of the token.) -/
theorem c1_round_trip (grid : Grid) (w : Nat)
    (message password nonce : List Nat) (g' : Grid)
    (hw : Wellformed w grid)
    (hmb : ∀ b ∈ message, b < 256)
    (hpw : 6 ≤ password.length)
    (hn : nonce.length = 16) (hnb : ∀ b ∈ nonce, b < 256)
    (hok : hide_message grid message password nonce = Except.ok g') :
    extract_message g' password = Except.ok message :=
  round_trip_core grid w message password nonce g' hw hmb hpw hn hnb hok

/-- C1 witness: hiding "HI" with password "secret" in a 16 x 15 white
image and extracting with the same password returns "HI". -/
theorem c1_round_trip_witness :
    extract_message (embedGrid (payloadBits wMsg wPwd wNonce) wGrid).1 wPwd =
      Except.ok wMsg :=
  c1_round_trip wGrid 16 wMsg wPwd wNonce _
    (by decide) (by decide) (by decide) (by decide) (by decide) rfl

/-- C10: for every byte sequence containing no 0x00 byte,
`bin_to_bytes (bytes_to_bin data ++ "00000000" ++ suffix) = data` for any
trailing bit string: `bin_to_bytes` returns the bytes before the first
aligned all-zero byte, so extraction relies on the ciphertext containing
no zero byte. -/
theorem c10_sentinel_roundtrip (data : List Nat) (suffix : List Bool)
    (hnz : ∀ b ∈ data, b ≠ 0) (hlt : ∀ b ∈ data, b < 256) :
    bin_to_bytes (bytes_to_bin data ++ List.replicate 8 false ++ suffix) = data :=
  bin_to_bytes_roundtrip data suffix hnz hlt

/-- C10 witness: concrete zero-free bytes survive the sentinel codec with
junk bits appended. -/
theorem c10_sentinel_roundtrip_witness :
    bin_to_bytes (bytes_to_bin [1, 200, 255] ++ List.replicate 8 false ++
      [true, false, true]) = [1, 200, 255] :=
  c10_sentinel_roundtrip [1, 200, 255] [true, false, true] (by decide) (by decide)

/-- C2 counterexample: the payload the code embeds for a concrete encode
is not of the spec's `salt(16) || length(4, BE) || ciphertext` shape: its
bytes 16-19 read as a big-endian 32-bit integer do not equal the length of
what follows (they are base64 text of the Fernet token, far larger). -/
theorem c2_counterexample :
    ¬ specHeaderFormat (encodePayload wMsg wPwd wNonce) := by decide

theorem bytes_to_bin_append (l1 l2 : List Nat) :
    bytes_to_bin (l1 ++ l2) = bytes_to_bin l1 ++ bytes_to_bin l2 := by
  induction l1 with
  | nil => rfl
  | cons b rest ih => simp [bytes_to_bin, ih]

theorem getLast_append_single (l : List Nat) (a : Nat) :
    (l ++ [a]).getLast? = some a := by
  induction l with
  | nil => rfl
  | cons x xs ih =>
    rw [List.cons_append, List.getLast?_cons, ih]
    cases xs <;> rfl

/-- C2 amended: the payload of every encode is the Fernet ciphertext token
followed by a single 0x00 sentinel byte; every token byte is nonzero
(base64 text); and the embedded bit stream is exactly the bit expansion of
this byte sequence. -/
theorem c2_payload_format (message password nonce : List Nat) :
    (encodePayload message password nonce).getLast? = some 0 ∧
    (∀ b ∈ (encodePayload message password nonce).dropLast, b ≠ 0) ∧
    payloadBits message password nonce =
      bytes_to_bin (encodePayload message password nonce) := by
  unfold encodePayload
  refine ⟨getLast_append_single _ _, ?_, ?_⟩
  · rw [List.dropLast_concat]
    intro b hb
    exact Nat.pos_iff_ne_zero.mp (b64urlEncode_mem _ b hb).1
  · unfold payloadBits
    rw [bytes_to_bin_append]
    congr 1

/-- C3 counterexample: the key the code derives for the concrete password
"secret" is not a 32-byte key (it is the 44-character base64url text of
the SHA-256 digest), and the derivation takes no salt at all. -/
theorem c3_counterexample : (generate_key wPwd).length ≠ 32 := by
  rw [generate_key_length]
  omega

/-- C3 amended: `generate_key` is a deterministic function of the password
alone — one unsalted, single-pass SHA-256, not a 100000-iteration
key-stretching function — and it returns the 44-byte urlsafe-base64
encoding of the 32-byte digest. -/
theorem c3_key_derivation (password : List Nat) :
    (sha256 password).length = 32 ∧
    (generate_key password).length = 44 ∧
    generate_key password = b64urlEncode (sha256 password) :=
  ⟨sha256_length password, generate_key_length password, rfl⟩

/-- C4 counterexample: for the concrete 4 x 4 image (capacity 48 bits,
maximum payload 48 / 8 = 6 bytes) the capacity error reports 3 — the
`capacity // 8 // 2` "max characters" heuristic — not the maximum payload
size in bytes. -/
theorem c4_counterexample :
    hide_message smallGrid wMsg wPwd wNonce = Except.error (HideError.tooLarge 3) ∧
    imageCapacity smallGrid = 48 ∧ 3 ≠ 48 / 8 := by
  refine ⟨rfl, rfl, by omega⟩

/-- C4 amended: with a valid message and password, hiding succeeds exactly
when the payload (token plus sentinel byte) has at most `capacity / 8`
bytes — so a payload of exactly `capacity / 8` bytes succeeds and one byte
more fails — and the failure is `CapacityExceeded` reporting
`capacity / 8 / 2` (a conservative character count, not the maximum
payload size in bytes), raised before any pixel is touched (the error
carries no image). -/
theorem c4_capacity_boundary (grid : Grid) (message password nonce : List Nat)
    (hm : message.length ≠ 0) (hpw : 6 ≤ password.length) :
    ((encodePayload message password nonce).length ≤ imageCapacity grid / 8 →
      hide_message grid message password nonce =
        Except.ok (embedGrid (payloadBits message password nonce) grid).1) ∧
    (imageCapacity grid / 8 < (encodePayload message password nonce).length →
      hide_message grid message password nonce =
        Except.error (HideError.tooLarge (imageCapacity grid / 8 / 2))) := by
  have hbits : (payloadBits message password nonce).length =
      8 * (encodePayload message password nonce).length := by
    unfold payloadBits encodePayload
    simp [List.length_append, bytes_to_bin_length]
    omega
  constructor
  · intro hle
    unfold hide_message
    rw [if_neg hm, if_neg (by omega), if_neg (by omega)]
  · intro hgt
    unfold hide_message
    rw [if_neg hm, if_neg (by omega), if_pos (by omega)]

/-- C4 witness: on the 4 x 4 image the payload exceeds `capacity / 8`
bytes and hide fails with the capacity error reporting 3. -/
theorem c4_capacity_boundary_witness :
    hide_message smallGrid wMsg wPwd wNonce =
      Except.error (HideError.tooLarge (imageCapacity smallGrid / 8 / 2)) :=
  (c4_capacity_boundary smallGrid wMsg wPwd wNonce (by decide) (by decide)).2
    (by decide)

/-- C5 counterexample: the empty password is different from the hiding
password, yet extraction with it does not fail with the 401
wrong-password error (the code's AuthFail): it fails with the 400
"Password is required" validation error. -/
theorem c5_counterexample :
    (hide_message wGrid wMsg wPwd wNonce).toOption.map
        (fun g2 => extract_message g2 []) =
      some (Except.error ExtractError.noPassword) ∧
    ExtractError.noPassword ≠ ExtractError.wrongPasswordOrNoMessage :=
  ⟨rfl, by decide⟩

/-- C5 amended: for every image produced by a successful hide and every
non-empty password whose derived key differs from the hiding password's
key (true of every practically distinct password, barring SHA-256
collisions), extraction fails with the single 401 wrong-password error —
the same error as for tampered ciphertext — and never returns a decoded
string. -/
theorem c5_wrong_key (grid : Grid) (w : Nat)
    (message password1 password2 nonce : List Nat) (g' : Grid)
    (hw : Wellformed w grid)
    (hmb : ∀ b ∈ message, b < 256)
    (hn : nonce.length = 16) (hnb : ∀ b ∈ nonce, b < 256)
    (hp2 : password2.length ≠ 0)
    (hkey : generate_key password2 ≠ generate_key password1)
    (hok : hide_message grid message password1 nonce = Except.ok g') :
    extract_message g' password2 =
      Except.error ExtractError.wrongPasswordOrNoMessage := by
  have htok := hide_extract_token grid w message password1 nonce g' hw hok
  have hb : ∀ x ∈ generate_key password1 ++ nonce ++ message, x < 256 := by
    intro x hx
    simp only [List.mem_append] at hx
    rcases hx with (hx | hx) | hx
    · exact (generate_key_mem password1 x hx).2
    · exact hnb x hx
    · exact hmb x hx
  unfold extract_message
  rw [if_neg hp2, htok,
      fernetDecrypt_wrong (generate_key password1) (generate_key password2)
        nonce message hb
        ((generate_key_length password2).trans (generate_key_length password1).symm)
        hkey]

/-- C5 witness: extracting with "wrongpw" from the image hiding "HI" under
"secret" yields the 401 wrong-password error. -/
theorem c5_wrong_key_witness :
    extract_message (embedGrid (payloadBits wMsg wPwd wNonce) wGrid).1 wPwd2 =
      Except.error ExtractError.wrongPasswordOrNoMessage :=
  c5_wrong_key wGrid 16 wMsg wPwd wPwd2 wNonce _
    (by decide) (by decide) (by decide) (by decide) (by decide) (by decide) rfl

/-- C6: a successful hide changes only the least-significant bits of the
channels visited in the fixed traversal order (rows top to bottom, columns
left to right, channels R, G, B) up to the payload's bit count: the
channel list keeps its length, every channel at an index past the payload
bits is unchanged, and every visited channel keeps its upper bits
(`c / 2`) while its LSB (`c % 2`) becomes the corresponding payload
bit. -/
theorem c6_locality (grid : Grid) (w : Nat)
    (message password nonce : List Nat) (g' : Grid)
    (hw : Wellformed w grid)
    (hok : hide_message grid message password nonce = Except.ok g') :
    (channels g').length = (channels grid).length ∧
    (∀ i, (payloadBits message password nonce).length ≤ i →
      (channels g').getD i 0 = (channels grid).getD i 0) ∧
    (∀ i, i < (payloadBits message password nonce).length →
      (channels g').getD i 0 / 2 = (channels grid).getD i 0 / 2 ∧
      (channels g').getD i 0 % 2 =
        (if (payloadBits message password nonce).getD i false then 1 else 0)) := by
  obtain ⟨-, -, hcap, hg⟩ := hide_ok_elim grid message password nonce g' hok
  subst hg
  rw [(embedGrid_spec grid (payloadBits message password nonce)).1]
  refine ⟨embedChannels_length _ _,
          fun i hi => embedChannels_getD_ge _ _ i hi,
          fun i hi => ?_⟩
  have hic : i < (channels grid).length := by
    rw [← capacity_eq_channels w grid hw]
    omega
  rw [embedChannels_getD_lt _ _ i hi hic]
  exact ⟨setLSB_div _ _, setLSB_mod _ _⟩

/-- C6 witness: the concrete hide of "HI" into the 16 x 15 white image
leaves the channel count unchanged and leaves channel 700 (past the 680
payload bits) exactly as it was. -/
theorem c6_locality_witness :
    (channels (embedGrid (payloadBits wMsg wPwd wNonce) wGrid).1).length =
      (channels wGrid).length ∧
    (channels (embedGrid (payloadBits wMsg wPwd wNonce) wGrid).1).getD 700 0 =
      (channels wGrid).getD 700 0 := by
  have h := c6_locality wGrid 16 wMsg wPwd wNonce
    (embedGrid (payloadBits wMsg wPwd wNonce) wGrid).1 (by decide) rfl
  exact ⟨h.1, h.2.1 700 (by decide)⟩

/-- C7 counterexample: extracting from a 3 x 3 all-black image leaves an
extracted buffer far shorter than 20 bytes, yet the code does not fail
with a distinct `MalformedPayload` error: it fails with the same 401
"Wrong password or no hidden message found" error used for a wrong
password (the code has no malformed-payload error at all). -/
theorem c7_counterexample :
    (bin_to_bytes (extractBits zeroGrid)).length < 20 ∧
    extract_message zeroGrid wPwd =
      Except.error ExtractError.wrongPasswordOrNoMessage :=
  ⟨by decide, rfl⟩

/-- C7 amended: extraction is total and never spuriously successful: any
extracted buffer too short to be a valid token — in particular anything
under 80 characters, the code's analogue of the spec's 20-byte minimum —
is rejected with the single 401 wrong-password error, and extraction
returns a message only when the cipher actually decrypts the extracted
buffer. -/
theorem c7_extraction_total (grid : Grid) (password : List Nat)
    (hp : password.length ≠ 0) :
    ((bin_to_bytes (extractBits grid)).length < 80 →
      extract_message grid password =
        Except.error ExtractError.wrongPasswordOrNoMessage) ∧
    (∀ m2, extract_message grid password = Except.ok m2 →
      fernetDecrypt (generate_key password)
        (bin_to_bytes (extractBits grid)) = some m2) := by
  constructor
  · intro hshort
    unfold extract_message
    rw [if_neg hp]
    rcases hdec : fernetDecrypt (generate_key password)
        (bin_to_bytes (extractBits grid)) with _ | raw
    · rfl
    · exfalso
      unfold fernetDecrypt at hdec
      rcases hdec2 : b64urlDecode (bin_to_bytes (extractBits grid)) with _ | raw2
      · rw [hdec2] at hdec; cases hdec
      · rw [hdec2] at hdec
        dsimp only at hdec
        by_cases hcond : (raw2.take (generate_key password).length =
            generate_key password ∧
            (generate_key password).length + 16 ≤ raw2.length)
        · have hlen2 := b64urlDecode_length _ _ hdec2
          rw [generate_key_length] at hcond
          omega
        · rw [if_neg hcond] at hdec; cases hdec
  · intro m2 hm2
    unfold extract_message at hm2
    rw [if_neg hp] at hm2
    rcases hdec : fernetDecrypt (generate_key password)
        (bin_to_bytes (extractBits grid)) with _ | raw
    · rw [hdec] at hm2; cases hm2
    · rw [hdec] at hm2
      dsimp only at hm2
      injection hm2 with hm2
      rw [hm2]

/-- C7 witness: the all-black 3 x 3 image's empty buffer is rejected with
the single 401 error. -/
theorem c7_extraction_total_witness :
    extract_message zeroGrid wPwd =
      Except.error ExtractError.wrongPasswordOrNoMessage :=
  (c7_extraction_total zeroGrid wPwd (by decide)).1 (by decide)

/-- C8 counterexample: on a concrete 8 x 7 image whose LSB stream spells
16 nonzero bytes, a header-style length field declaring 1, and one more
byte, the code's extraction (scan everything, cut at the first aligned
zero byte) returns a different buffer from the spec's early-exit extractor
(which would stop after 20 + 1 bytes): the code stops at the zero byte
inside the would-be length field. -/
theorem c8_counterexample :
    bin_to_bytes (extractBits c8Grid) ≠ specExtract c8Grid := by decide

/-- C8 amended: the extractor does walk the pixels in the embedder's exact
traversal order, packing LSBs MSB-first — its bit stream is the LSB map of
the same channel enumeration the embedder writes — but it has no early
exit: it always scans every pixel of the image and only afterwards cuts
the stream at the first aligned all-zero byte via `bin_to_bytes`. -/
theorem c8_full_scan (g : Grid) (bits : List Bool) :
    extractBits g = (channels g).map lsbBit ∧
    (extractBits g).length = (channels g).length ∧
    channels (embedGrid bits g).1 = embedChannels bits (channels g) :=
  ⟨extractBits_eq g, by rw [extractBits_eq g, List.length_map],
   (embedGrid_spec g bits).1⟩

/-- C9: two hides of the same image, message and password with distinct
fresh cipher randomness (the Fernet token's nonce; the code derives no
salt) produce different pixel grids, yet extraction with the password
returns the original message from both. -/
theorem c9_nondeterminism (grid : Grid) (w : Nat)
    (message password n1 n2 : List Nat) (g1 g2 : Grid)
    (hw : Wellformed w grid)
    (hmb : ∀ b ∈ message, b < 256)
    (hpw : 6 ≤ password.length)
    (hn1 : n1.length = 16) (hn1b : ∀ b ∈ n1, b < 256)
    (hn2 : n2.length = 16) (hn2b : ∀ b ∈ n2, b < 256)
    (hne : n1 ≠ n2)
    (hok1 : hide_message grid message password n1 = Except.ok g1)
    (hok2 : hide_message grid message password n2 = Except.ok g2) :
    g1 ≠ g2 ∧
    extract_message g1 password = Except.ok message ∧
    extract_message g2 password = Except.ok message := by
  refine ⟨?_, round_trip_core grid w message password n1 g1 hw hmb hpw hn1 hn1b hok1,
          round_trip_core grid w message password n2 g2 hw hmb hpw hn2 hn2b hok2⟩
  intro heq
  apply hne
  have t1 := hide_extract_token grid w message password n1 g1 hw hok1
  have t2 := hide_extract_token grid w message password n2 g2 hw hok2
  rw [heq] at t1
  have htok : fernetEncrypt (generate_key password) n1 message =
      fernetEncrypt (generate_key password) n2 message := t1.symm.trans t2
  have hb1 : ∀ x ∈ generate_key password ++ n1 ++ message, x < 256 := by
    intro x hx
    simp only [List.mem_append] at hx
    rcases hx with (hx | hx) | hx
    · exact (generate_key_mem password x hx).2
    · exact hn1b x hx
    · exact hmb x hx
  have hb2 : ∀ x ∈ generate_key password ++ n2 ++ message, x < 256 := by
    intro x hx
    simp only [List.mem_append] at hx
    rcases hx with (hx | hx) | hx
    · exact (generate_key_mem password x hx).2
    · exact hn2b x hx
    · exact hmb x hx
  have e1 := b64_roundtrip (generate_key password ++ n1 ++ message) hb1
  have e2 := b64_roundtrip (generate_key password ++ n2 ++ message) hb2
  unfold fernetEncrypt at htok
  rw [htok, e2] at e1
  injection e1 with e1
  have x1 : ((generate_key password ++ n2 ++ message).drop
      (generate_key password).length).take 16 = n2 := by
    rw [List.append_assoc]
    have hd := dropAppendPlus (generate_key password) (n2 ++ message) 0
    rw [Nat.add_zero] at hd
    rw [hd, List.drop_zero, ← hn2, takeAppendSelf]
  have x2 : ((generate_key password ++ n1 ++ message).drop
      (generate_key password).length).take 16 = n1 := by
    rw [List.append_assoc]
    have hd := dropAppendPlus (generate_key password) (n1 ++ message) 0
    rw [Nat.add_zero] at hd
    rw [hd, List.drop_zero, ← hn1, takeAppendSelf]
  rw [← x2, ← x1, e1]

/-- C9 witness: hiding "HI" under "secret" with two different nonces gives
two different grids. -/
theorem c9_nondeterminism_witness :
    (embedGrid (payloadBits wMsg wPwd wNonce) wGrid).1 ≠
      (embedGrid (payloadBits wMsg wPwd wNonce2) wGrid).1 :=
  (c9_nondeterminism wGrid 16 wMsg wPwd wNonce wNonce2
    (embedGrid (payloadBits wMsg wPwd wNonce) wGrid).1
    (embedGrid (payloadBits wMsg wPwd wNonce2) wGrid).1
    (by decide) (by decide) (by decide) (by decide) (by decide)
    (by decide) (by decide) (by decide) rfl rfl).1
